import Mathlib

/-!
# Verification of the `ObjectPool` memory pool (src/Memory.cc)

Shallow embedding of the templated `ObjectPool<T, Allocator>` class:

* a chunk is identified by the address of its first slot (the C++ code stores
  only `T*` chunk base pointers in `m_pool`; slot addresses are modelled as
  natural numbers counted in units of `sizeof(T)`);
* the raw-memory provider (`Allocator`) is modelled as a bump allocator with a
  capacity limit, so that an out-of-memory failure is expressible;
* `m_freeObjects` is a `std::vector<T*>`: we model it as a list whose *last*
  element is the vector's `back()`; `push_back`, `back()` and `pop_back` become
  `· ++ [a]`, `getLastD` and `dropLast`;
* exceptions (`allocate` throwing, `T`'s constructor throwing) are modelled by
  `Option`/`Except`: a statement after the throwing one simply does not run.

On top of the operations we put a small trace semantics (`step`, `run`): the
live (issued, unreleased) objects and the capacity each chunk was allocated
with are recorded alongside the C++ state, so that the spec's invariants can
be stated about every reachable pool state.
-/

namespace MemoryPool

/-- The raw-memory provider (`Allocator`).  A bump allocator: `next` is the
first never-handed-out address, `limit` the total number of slots it can
serve.  Distinct allocations are disjoint, which is all the C++ allocator
guarantees that the pool relies on. -/
structure Mem where
  next : Nat
  limit : Nat
deriving Repr, DecidableEq

/-- `m_allocator.allocate(n)`: hand out `n` fresh contiguous slots, or fail
(`std::bad_alloc`) when the provider cannot satisfy the request. -/
def Mem.allocate (m : Mem) (n : Nat) : Option (Nat × Mem) :=
  if m.next + n ≤ m.limit then some (m.next, { m with next := m.next + n }) else none

/-- `static const size_t ms_initialChunkSize { 5 };` (src/Memory.cc:37). -/
def ms_initialChunkSize : Nat := 5

/-- The data members of `ObjectPool` (src/Memory.cc:34-39): the chunk base
pointers `m_pool`, the free-slot vector `m_freeObjects` (back = last element),
and the size `m_newChunkSize` the next chunk will be allocated with. -/
structure Pool where
  m_pool : List Nat
  m_freeObjects : List Nat
  m_newChunkSize : Nat
deriving Repr, DecidableEq

/-- A default-constructed `ObjectPool`: no chunks, no free slots,
`m_newChunkSize` at its initializer `ms_initialChunkSize`. -/
def initPool : Pool :=
  { m_pool := [], m_freeObjects := [], m_newChunkSize := ms_initialChunkSize }

/-- `ObjectPool::addChunk` (src/Memory.cc:53-70).  `allocate` is the first
statement that touches pool or allocator state, so when it throws the
function returns `none` with nothing modified.  On success the chunk base is
appended to `m_pool`, the addresses `firstNewObject + i` for
`i < m_newChunkSize` are appended to `m_freeObjects` (the
`resize` + `std::iota` at src/Memory.cc:64-66, ascending order), and the
chunk size is doubled. -/
def addChunk (p : Pool) (m : Mem) : Option (Pool × Mem) :=
  match m.allocate p.m_newChunkSize with
  | none => none
  | some (firstNewObject, m') =>
      some ({ m_pool := p.m_pool ++ [firstNewObject],
              m_freeObjects := p.m_freeObjects ++
                (List.range p.m_newChunkSize).map (fun i => firstNewObject + i),
              m_newChunkSize := p.m_newChunkSize * 2 }, m')

/-- The two ways `acquireObject` can fail: the provider throws during growth,
or `T`'s constructor throws at the placement `new`. -/
inductive PoolError where
  | outOfMemory
  | constructionFailure
deriving Repr, DecidableEq

deriving instance DecidableEq for Except

/-- `ObjectPool::acquireObject` (src/Memory.cc:72-96), at the level of slot
addresses.  `ctorOk` says whether `T`'s constructor succeeds.  Mirroring the
source order: grow when `m_freeObjects` is empty (a thrown `bad_alloc`
propagates, leaving the pool as it was); read `m_freeObjects.back()`
(`getLastD _ 0`; the vector is never empty here for any pool the program can
build); run the placement `new` — when the constructor throws, the exception
propagates *before* the `pop_back`, so the slot stays in `m_freeObjects`;
only then `pop_back` and wrap the address.  The returned pool/memory pair is
the state of the C++ objects after the call, also on the error paths. -/
def acquireObject (p : Pool) (m : Mem) (ctorOk : Bool) :
    Except PoolError Nat × Pool × Mem :=
  match (if p.m_freeObjects.isEmpty then addChunk p m else some (p, m)) with
  | none => (Except.error PoolError.outOfMemory, p, m)
  | some (p1, m1) =>
      let object := p1.m_freeObjects.getLastD 0
      if ctorOk then
        (Except.ok object, { p1 with m_freeObjects := p1.m_freeObjects.dropLast }, m1)
      else
        (Except.error PoolError.constructionFailure, p1, m1)

/-- The `shared_ptr` deleter (src/Memory.cc:90-95): destroy the object and
push its address back onto `m_freeObjects`. -/
def releaseObject (p : Pool) (a : Nat) : Pool :=
  { p with m_freeObjects := p.m_freeObjects ++ [a] }

/-- The defaulted move operations (src/Memory.cc:20-21) perform a member-wise
move: moving a `std::vector` transfers its buffer and leaves the source
empty, while "moving" the `size_t` member `m_newChunkSize` copies it — the
moved-from value keeps its old chunk-size counter.  Result:
(destination, moved-from source). -/
def movePool (src : Pool) : Pool × Pool :=
  ({ m_pool := src.m_pool, m_freeObjects := src.m_freeObjects,
     m_newChunkSize := src.m_newChunkSize },
   { m_pool := [], m_freeObjects := [], m_newChunkSize := src.m_newChunkSize })

/-- The defensive check of `~ObjectPool` (src/Memory.cc:100):
`m_freeObjects.size() == ms_initialChunkSize * (pow(2, m_pool.size()) - 1)`,
i.e. every slot of every chunk is back on the free list. -/
def destructorCheck (p : Pool) : Bool :=
  p.m_freeObjects.length == ms_initialChunkSize * (2 ^ p.m_pool.length - 1)

/-- The deallocation loop of `~ObjectPool` (src/Memory.cc:102-107):
`chunkSize` starts at `ms_initialChunkSize` and doubles after every chunk;
each chunk base is handed back to the provider with the current `chunkSize`.
The result lists the `deallocate(chunk, chunkSize)` calls in order. -/
def deallocLoop : List Nat → Nat → List (Nat × Nat)
  | [], _ => []
  | c :: rest, sz => (c, sz) :: deallocLoop rest (sz * 2)

/-- One external operation on the pool: an acquisition (with the given
constructor outcome) or the last release of the `i`-th live handle. -/
inductive Op where
  | acquire (ctorOk : Bool)
  | release (i : Nat)

/-- A pool together with its allocator, the addresses of the currently live
(issued, unreleased) objects, and a ghost record of the capacity each chunk
was allocated with, in allocation order. -/
structure PoolSys where
  pool : Pool
  mem : Mem
  live : List Nat
  chunkCaps : List Nat
deriving Repr, DecidableEq

/-- A fresh pool over a provider that can serve `limit` slots in total. -/
def initSys (limit : Nat) : PoolSys :=
  { pool := initPool, mem := { next := 0, limit := limit }, live := [], chunkCaps := [] }

/-- Trace semantics.  An acquisition runs `acquireObject`; when it hands out
an address that address becomes live; when a chunk was added (also on a later
constructor failure) its allocation size — the `m_newChunkSize` in force
before the call — is recorded in `chunkCaps`.  A release of live handle `i`
runs the deleter on its address; releasing a non-existent handle is a no-op
of the model (the C++ caller cannot do it). -/
def step (s : PoolSys) (op : Op) : PoolSys :=
  match op with
  | Op.acquire ctorOk =>
      let r := acquireObject s.pool s.mem ctorOk
      let caps' := if r.2.1.m_pool.length = s.pool.m_pool.length then s.chunkCaps
                   else s.chunkCaps ++ [s.pool.m_newChunkSize]
      match r.1 with
      | Except.ok a => { pool := r.2.1, mem := r.2.2, live := s.live ++ [a], chunkCaps := caps' }
      | Except.error _ => { pool := r.2.1, mem := r.2.2, live := s.live, chunkCaps := caps' }
  | Op.release i =>
      match s.live[i]? with
      | some a =>
          { pool := releaseObject s.pool a, mem := s.mem,
            live := s.live.eraseIdx i, chunkCaps := s.chunkCaps }
      | none => s

/-- The state after running a sequence of operations on a fresh pool. -/
def run (limit : Nat) (ops : List Op) : PoolSys :=
  ops.foldl step (initSys limit)

/-- `k` consecutive acquisitions with succeeding constructors, collecting the
addresses handed out in order (stopping early if an acquisition fails). -/
def acquireRun : Nat → Pool → Mem → List Nat × Pool × Mem
  | 0, p, m => ([], p, m)
  | k + 1, p, m =>
      match acquireObject p m true with
      | (Except.ok a, p', m') =>
          let rest := acquireRun k p' m'
          (a :: rest.1, rest.2.1, rest.2.2)
      | (Except.error _, p', m') => ([], p', m')

/-- A constructor argument for `T`, instrumented with a counter of how many
times the C++ copy constructor ran on its way from the caller into the
stored object.  `val` stands for the argument's payload (the `42` of the
spec's example). -/
structure TrackedArg where
  val : Nat
  copies : Nat
deriving Repr, DecidableEq

/-- Binding a caller's lvalue argument to a *by-value* function parameter
runs the argument type's copy constructor once. -/
def copyBind (a : TrackedArg) : TrackedArg :=
  { a with copies := a.copies + 1 }

/-- `acquireObject` exactly as declared in the source (src/Memory.cc:29-30):
`template<typename... Args> std::shared_ptr<T> acquireObject(Args... args)`.
The parameter pack is declared *by value*, so a caller's lvalue argument is
copied into `args` when the function is entered (`copyBind`);
`std::forward<Args>(args)...` with `Args` deduced as a non-reference type
then moves — no further copy — into the placement-new constructor
(src/Memory.cc:84).  The `T` stored at the slot is modelled as the argument
it was constructed from. -/
def acquireObjectByValueArg (p : Pool) (m : Mem) (arg : TrackedArg) :
    Except PoolError TrackedArg × Pool × Mem :=
  let args := copyBind arg
  match (if p.m_freeObjects.isEmpty then addChunk p m else some (p, m)) with
  | none => (Except.error PoolError.outOfMemory, p, m)
  | some (p1, m1) =>
      (Except.ok args, { p1 with m_freeObjects := p1.m_freeObjects.dropLast }, m1)

/-- Modelled from the spec: "Construct a `T` in place at that address using
the provided arguments (perfectly forwarded, no copy)."  This is the
behaviour of the perfectly-forwarding signature
`acquireObject(Args&&... args)` that the source's own comments describe: the
caller's lvalue binds by reference and reaches the constructor with no copy
at all. -/
def acquireObjectForwarded (p : Pool) (m : Mem) (arg : TrackedArg) :
    Except PoolError TrackedArg × Pool × Mem :=
  match (if p.m_freeObjects.isEmpty then addChunk p m else some (p, m)) with
  | none => (Except.error PoolError.outOfMemory, p, m)
  | some (p1, m1) =>
      (Except.ok arg, { p1 with m_freeObjects := p1.m_freeObjects.dropLast }, m1)

/-! ## The reachability invariant -/

/-- The invariant every state reachable from a fresh pool satisfies:
`m_newChunkSize` is the initial size doubled once per owned chunk; chunk `i`
was allocated with capacity `ms_initialChunkSize * 2 ^ i`; the free slots and
the live objects together exactly account for the capacity of every chunk;
no address is accounted for twice; and every such address was handed out by
the provider. -/
structure Inv (s : PoolSys) : Prop where
  hsize : s.pool.m_newChunkSize = ms_initialChunkSize * 2 ^ s.pool.m_pool.length
  hcaps : s.chunkCaps =
    (List.range s.pool.m_pool.length).map (fun i => ms_initialChunkSize * 2 ^ i)
  hcons : s.pool.m_freeObjects.length + s.live.length = s.chunkCaps.sum
  hnodup : (s.pool.m_freeObjects ++ s.live).Nodup
  hbound : ∀ a ∈ s.pool.m_freeObjects ++ s.live, a < s.mem.next

/-! ## Characterisations of the operations -/

lemma allocate_ok {m : Mem} {n : Nat} (h : m.next + n ≤ m.limit) :
    m.allocate n = some (m.next, { next := m.next + n, limit := m.limit }) := by
  simp [Mem.allocate, h]

lemma allocate_fail {m : Mem} {n : Nat} (h : m.limit < m.next + n) :
    m.allocate n = none := by
  have hn : ¬ (m.next + n ≤ m.limit) := by omega
  simp [Mem.allocate, hn]

lemma addChunk_ok {p : Pool} {m : Mem} (h : m.next + p.m_newChunkSize ≤ m.limit) :
    addChunk p m = some
      ({ m_pool := p.m_pool ++ [m.next],
         m_freeObjects := p.m_freeObjects ++
           (List.range p.m_newChunkSize).map (fun i => m.next + i),
         m_newChunkSize := p.m_newChunkSize * 2 },
       { next := m.next + p.m_newChunkSize, limit := m.limit }) := by
  simp [addChunk, allocate_ok h]

lemma addChunk_fail {p : Pool} {m : Mem} (h : m.limit < m.next + p.m_newChunkSize) :
    addChunk p m = none := by
  simp [addChunk, allocate_fail h]

lemma acquireObject_of_ne_nil {p : Pool} (m : Mem) (c : Bool)
    (h : p.m_freeObjects ≠ []) :
    acquireObject p m c =
      if c then
        (Except.ok (p.m_freeObjects.getLastD 0),
         { p with m_freeObjects := p.m_freeObjects.dropLast }, m)
      else
        (Except.error PoolError.constructionFailure, p, m) := by
  have hne : p.m_freeObjects.isEmpty = false := by
    simpa [List.isEmpty_iff] using h
  cases c <;> simp [acquireObject, hne]

lemma concat_dropLast_getLastD {l : List Nat} (h : l ≠ []) :
    l.dropLast ++ [l.getLastD 0] = l := by
  rw [List.getLastD_eq_getLast?, List.getLast?_eq_getLast l h]
  exact List.dropLast_append_getLast h

lemma getLastD_mem_self {l : List Nat} (h : l ≠ []) : l.getLastD 0 ∈ l := by
  have hmem : l.getLastD 0 ∈ l.dropLast ++ [l.getLastD 0] :=
    List.mem_append_right _ (List.mem_singleton_self _)
  rwa [concat_dropLast_getLastD h] at hmem

/-- Moving the back element across an append: taking the last free slot and
appending it to the live list permutes `free ++ live`. -/
lemma perm_take_back (l t : List Nat) (a : Nat) :
    List.Perm (l ++ (t ++ [a])) ((l ++ [a]) ++ t) := by
  calc List.Perm (l ++ (t ++ [a])) (l ++ ([a] ++ t)) :=
        (@List.perm_append_comm _ t [a]).append_left l
    _ = (l ++ [a]) ++ t := (List.append_assoc l [a] t).symm

lemma perm_getElem_cons_eraseIdx (l : List Nat) (i : Nat) (h : i < l.length) :
    List.Perm l (l[i] :: l.eraseIdx i) :=
  (List.perm_cons_erase (l.getElem_mem h)).trans ((List.erase_getElem h).cons _)

lemma inv_init (limit : Nat) : Inv (initSys limit) := by
  refine ⟨rfl, rfl, rfl, ?_, ?_⟩ <;> simp [initSys, initPool]

lemma map_range_succ (f : Nat → Nat) (n : Nat) :
    (List.range (n + 1)).map f = (List.range n).map f ++ [f n] := by
  rw [List.range_succ, List.map_append]
  rfl

lemma getLastD_map_range (f : Nat → Nat) (n : Nat) :
    ((List.range (n + 1)).map f).getLastD 0 = f n := by
  rw [map_range_succ]
  exact List.getLastD_concat _ _ _

lemma dropLast_map_range (f : Nat → Nat) (n : Nat) :
    ((List.range (n + 1)).map f).dropLast = (List.range n).map f := by
  rw [map_range_succ]
  exact List.dropLast_concat

lemma getLast?_range (n : Nat) : (List.range (n + 1)).getLast? = some n := by
  rw [List.range_succ]
  exact List.getLast?_concat _

/-- What `acquireObject` does on the growth path: with an empty free list and
a provider that can serve the request, the new chunk's slots are appended in
ascending order and (when the constructor succeeds) the highest-addressed new
slot is handed out. -/
lemma acquireObject_grow {p : Pool} {m : Mem} (c : Bool)
    (hfree : p.m_freeObjects = [])
    (h : m.next + p.m_newChunkSize ≤ m.limit) (hpos : 1 ≤ p.m_newChunkSize) :
    acquireObject p m c =
      if c then
        (Except.ok (m.next + (p.m_newChunkSize - 1)),
         { m_pool := p.m_pool ++ [m.next],
           m_freeObjects := (List.range (p.m_newChunkSize - 1)).map (fun i => m.next + i),
           m_newChunkSize := p.m_newChunkSize * 2 },
         { next := m.next + p.m_newChunkSize, limit := m.limit })
      else
        (Except.error PoolError.constructionFailure,
         { m_pool := p.m_pool ++ [m.next],
           m_freeObjects := (List.range p.m_newChunkSize).map (fun i => m.next + i),
           m_newChunkSize := p.m_newChunkSize * 2 },
         { next := m.next + p.m_newChunkSize, limit := m.limit }) := by
  obtain ⟨n, hn⟩ : ∃ n, p.m_newChunkSize = n + 1 := ⟨p.m_newChunkSize - 1, by omega⟩
  have hEmpty : p.m_freeObjects.isEmpty = true := by simp [hfree]
  cases c <;>
    simp [acquireObject, hEmpty, addChunk_ok h, hfree, hn,
      getLastD_map_range, dropLast_map_range, getLast?_range]

/-- OOM path of `acquireObject`: free list empty and the provider cannot
serve the chunk request; nothing is modified. -/
lemma acquireObject_oom {p : Pool} {m : Mem} (c : Bool)
    (hfree : p.m_freeObjects = [])
    (h : m.limit < m.next + p.m_newChunkSize) :
    acquireObject p m c = (Except.error PoolError.outOfMemory, p, m) := by
  have hEmpty : p.m_freeObjects.isEmpty = true := by simp [hfree]
  simp [acquireObject, hEmpty, addChunk_fail h]

lemma nodup_grown (live : List Nat) (next c : Nat)
    (hlive : live.Nodup) (hb : ∀ a ∈ live, a < next) :
    ((List.range c).map (fun i => next + i) ++ live).Nodup := by
  rw [List.nodup_append]
  refine ⟨(List.nodup_range c).map (fun a b h => by omega), hlive, ?_⟩
  intro x hx hx'
  have hxin : ∃ i, i < c ∧ next + i = x := by
    simpa [List.mem_map, List.mem_range] using hx
  obtain ⟨i, hi, hix⟩ := hxin
  have hlt := hb x hx'
  omega

lemma ms_initialChunkSize_pos : 0 < ms_initialChunkSize := by
  norm_num [ms_initialChunkSize]

lemma newChunkSize_pos {s : PoolSys} (hs : Inv s) : 1 ≤ s.pool.m_newChunkSize := by
  have h2 : 0 < 2 ^ s.pool.m_pool.length := Nat.pos_pow_of_pos _ (by norm_num)
  have h5 := ms_initialChunkSize_pos
  rw [hs.hsize]
  exact Nat.one_le_iff_ne_zero.mpr (by positivity)

/-- `step` on an acquisition with a nonempty free list and a succeeding
constructor. -/
lemma inv_step_acquire_ok_ne_nil {s : PoolSys} (hs : Inv s)
    (hfree : s.pool.m_freeObjects ≠ []) : Inv (step s (Op.acquire true)) := by
  obtain ⟨hsize, hcaps, hcons, hnodup, hbound⟩ := hs
  have hstep : step s (Op.acquire true) =
      { pool := { s.pool with m_freeObjects := s.pool.m_freeObjects.dropLast },
        mem := s.mem,
        live := s.live ++ [s.pool.m_freeObjects.getLastD 0],
        chunkCaps := s.chunkCaps } := by
    simp [step, acquireObject_of_ne_nil s.mem true hfree]
  rw [hstep]
  have hperm := perm_take_back s.pool.m_freeObjects.dropLast s.live
    (s.pool.m_freeObjects.getLastD 0)
  refine ⟨by simpa using hsize, by simpa using hcaps, ?_, ?_, ?_⟩
  · simp only [List.length_dropLast, List.length_append, List.length_singleton]
    have h1 : 1 ≤ s.pool.m_freeObjects.length := List.length_pos.mpr hfree
    omega
  · refine hperm.nodup_iff.mpr ?_
    rw [concat_dropLast_getLastD hfree]
    exact hnodup
  · intro a ha
    apply hbound
    have h2 := hperm.subset ha
    rwa [concat_dropLast_getLastD hfree] at h2

/-- `step` on an acquisition with a nonempty free list and a throwing
constructor: nothing changes. -/
lemma inv_step_acquire_fail_ne_nil {s : PoolSys} (hs : Inv s)
    (hfree : s.pool.m_freeObjects ≠ []) : Inv (step s (Op.acquire false)) := by
  have hstep : step s (Op.acquire false) = s := by
    simp [step, acquireObject_of_ne_nil s.mem false hfree]
  rw [hstep]
  exact hs

/-- `step` on an acquisition that triggers a growth event the provider can
serve, with a succeeding constructor. -/
lemma inv_step_acquire_ok_grow {s : PoolSys} (hs : Inv s)
    (hfree : s.pool.m_freeObjects = [])
    (halloc : s.mem.next + s.pool.m_newChunkSize ≤ s.mem.limit) :
    Inv (step s (Op.acquire true)) := by
  have hpos := newChunkSize_pos hs
  obtain ⟨hsize, hcaps, hcons, hnodup, hbound⟩ := hs
  have hlive_nodup : s.live.Nodup := by
    have h := hnodup
    rw [hfree] at h
    simpa using h
  have hlive_bound : ∀ a ∈ s.live, a < s.mem.next := by
    intro a ha
    exact hbound a (by rw [hfree]; simpa using ha)
  have hfree_len : s.pool.m_freeObjects.length = 0 := by simp [hfree]
  have hstep : step s (Op.acquire true) =
      { pool := { m_pool := s.pool.m_pool ++ [s.mem.next],
                  m_freeObjects := (List.range (s.pool.m_newChunkSize - 1)).map
                    (fun i => s.mem.next + i),
                  m_newChunkSize := s.pool.m_newChunkSize * 2 },
        mem := { next := s.mem.next + s.pool.m_newChunkSize, limit := s.mem.limit },
        live := s.live ++ [s.mem.next + (s.pool.m_newChunkSize - 1)],
        chunkCaps := s.chunkCaps ++ [s.pool.m_newChunkSize] } := by
    simp [step, acquireObject_grow true hfree halloc hpos]
  rw [hstep]
  refine ⟨?_, ?_, ?_, ?_, ?_⟩
  · simp only [List.length_append, List.length_singleton]
    rw [hsize]
    ring
  · simp only [List.length_append, List.length_singleton]
    rw [List.range_succ, List.map_append, hcaps, hsize]
    simp
  · simp only [List.length_map, List.length_range, List.length_append,
      List.length_singleton, List.sum_append, List.sum_cons, List.sum_nil]
    omega
  · have hperm := perm_take_back
      ((List.range (s.pool.m_newChunkSize - 1)).map (fun i => s.mem.next + i))
      s.live (s.mem.next + (s.pool.m_newChunkSize - 1))
    refine hperm.nodup_iff.mpr ?_
    have hcat : (List.range (s.pool.m_newChunkSize - 1)).map (fun i => s.mem.next + i)
        ++ [s.mem.next + (s.pool.m_newChunkSize - 1)]
        = (List.range s.pool.m_newChunkSize).map (fun i => s.mem.next + i) := by
      obtain ⟨n, hn⟩ : ∃ n, s.pool.m_newChunkSize = n + 1 :=
        ⟨s.pool.m_newChunkSize - 1, by omega⟩
      rw [hn]
      simpa using (map_range_succ (fun i => s.mem.next + i) n).symm
    rw [hcat]
    exact nodup_grown _ _ _ hlive_nodup hlive_bound
  · intro a ha
    simp only [List.mem_append, List.mem_map, List.mem_range,
      List.mem_singleton] at ha
    show a < s.mem.next + s.pool.m_newChunkSize
    rcases ha with ⟨i, hi, rfl⟩ | (ha | rfl)
    · omega
    · have := hlive_bound a ha
      omega
    · omega

/-- `step` on an acquisition that triggers a growth event the provider can
serve, after which the constructor throws: the chunk stays, no slot is
taken. -/
lemma inv_step_acquire_fail_grow {s : PoolSys} (hs : Inv s)
    (hfree : s.pool.m_freeObjects = [])
    (halloc : s.mem.next + s.pool.m_newChunkSize ≤ s.mem.limit) :
    Inv (step s (Op.acquire false)) := by
  have hpos := newChunkSize_pos hs
  obtain ⟨hsize, hcaps, hcons, hnodup, hbound⟩ := hs
  have hlive_nodup : s.live.Nodup := by
    have h := hnodup
    rw [hfree] at h
    simpa using h
  have hlive_bound : ∀ a ∈ s.live, a < s.mem.next := by
    intro a ha
    exact hbound a (by rw [hfree]; simpa using ha)
  have hfree_len : s.pool.m_freeObjects.length = 0 := by simp [hfree]
  have hstep : step s (Op.acquire false) =
      { pool := { m_pool := s.pool.m_pool ++ [s.mem.next],
                  m_freeObjects := (List.range s.pool.m_newChunkSize).map
                    (fun i => s.mem.next + i),
                  m_newChunkSize := s.pool.m_newChunkSize * 2 },
        mem := { next := s.mem.next + s.pool.m_newChunkSize, limit := s.mem.limit },
        live := s.live,
        chunkCaps := s.chunkCaps ++ [s.pool.m_newChunkSize] } := by
    simp [step, acquireObject_grow false hfree halloc hpos]
  rw [hstep]
  refine ⟨?_, ?_, ?_, ?_, ?_⟩
  · simp only [List.length_append, List.length_singleton]
    rw [hsize]
    ring
  · simp only [List.length_append, List.length_singleton]
    rw [List.range_succ, List.map_append, hcaps, hsize]
    simp
  · simp only [List.length_map, List.length_range, List.sum_append,
      List.sum_cons, List.sum_nil]
    omega
  · exact nodup_grown _ _ _ hlive_nodup hlive_bound
  · intro a ha
    simp only [List.mem_append, List.mem_map, List.mem_range] at ha
    show a < s.mem.next + s.pool.m_newChunkSize
    rcases ha with ⟨i, hi, rfl⟩ | ha
    · omega
    · have := hlive_bound a ha
      omega

/-- `step` on an acquisition whose growth request the provider rejects:
out-of-memory, state unchanged. -/
lemma inv_step_acquire_oom {s : PoolSys} (hs : Inv s) (c : Bool)
    (hfree : s.pool.m_freeObjects = [])
    (halloc : s.mem.limit < s.mem.next + s.pool.m_newChunkSize) :
    Inv (step s (Op.acquire c)) := by
  have hstep : step s (Op.acquire c) = s := by
    simp [step, acquireObject_oom c hfree halloc]
  rw [hstep]
  exact hs

/-- The central preservation lemma: `step` keeps the invariant. -/
lemma inv_step {s : PoolSys} (hs : Inv s) (op : Op) : Inv (step s op) := by
  cases op with
  | acquire ctorOk =>
    by_cases hfree : s.pool.m_freeObjects = []
    · by_cases halloc : s.mem.next + s.pool.m_newChunkSize ≤ s.mem.limit
      · cases ctorOk with
        | true => exact inv_step_acquire_ok_grow hs hfree halloc
        | false => exact inv_step_acquire_fail_grow hs hfree halloc
      · exact inv_step_acquire_oom hs ctorOk hfree (by omega)
    · cases ctorOk with
      | true => exact inv_step_acquire_ok_ne_nil hs hfree
      | false => exact inv_step_acquire_fail_ne_nil hs hfree
  | release i =>
    obtain ⟨hsize, hcaps, hcons, hnodup, hbound⟩ := hs
    cases hget : s.live[i]? with
    | none =>
      have hstep : step s (Op.release i) = s := by simp [step, hget]
      rw [hstep]
      exact ⟨hsize, hcaps, hcons, hnodup, hbound⟩
    | some a =>
      have hi : i < s.live.length := (List.getElem?_eq_some.mp hget).1
      have ha : s.live[i] = a := (List.getElem?_eq_some.mp hget).2
      have hperm0 : List.Perm s.live (a :: s.live.eraseIdx i) := by
        rw [← ha]
        exact perm_getElem_cons_eraseIdx s.live i hi
      have hperm : List.Perm (s.pool.m_freeObjects ++ s.live)
          ((s.pool.m_freeObjects ++ [a]) ++ s.live.eraseIdx i) := by
        have h1 : List.Perm (s.pool.m_freeObjects ++ s.live)
            (s.pool.m_freeObjects ++ (a :: s.live.eraseIdx i)) :=
          hperm0.append_left _
        simpa [List.append_assoc] using h1
      have hstep : step s (Op.release i) =
          { pool := releaseObject s.pool a, mem := s.mem,
            live := s.live.eraseIdx i, chunkCaps := s.chunkCaps } := by
        simp [step, hget]
      rw [hstep]
      refine ⟨by simpa [releaseObject] using hsize,
        by simpa [releaseObject] using hcaps, ?_, ?_, ?_⟩
      · simp only [releaseObject, List.length_append, List.length_singleton]
        have h2 := List.length_eraseIdx_add_one hi
        omega
      · simpa [releaseObject] using hperm.nodup_iff.mp hnodup
      · intro x hx
        apply hbound
        apply hperm.symm.subset
        simpa [releaseObject] using hx

/-- Every state reachable from a fresh pool satisfies the invariant. -/
lemma inv_run (limit : Nat) (ops : List Op) : Inv (run limit ops) := by
  suffices h : ∀ s, Inv s → Inv (ops.foldl step s) from h _ (inv_init limit)
  induction ops with
  | nil => intro s hs; exact hs
  | cons op rest ih =>
    intro s hs
    exact ih _ (inv_step hs op)

/-! ## Arithmetic and loop helpers -/

/-- Geometric sum of the chunk capacities: `c + 2c + ... + c·2^(n-1) = c·(2^n - 1)`. -/
lemma sum_map_range_pow (c : Nat) :
    ∀ n, ((List.range n).map (fun i => c * 2 ^ i)).sum = c * (2 ^ n - 1) := by
  intro n
  induction n with
  | zero => simp
  | succ k ih =>
    rw [List.range_succ, List.map_append, List.sum_append, ih]
    have h1 : 1 ≤ 2 ^ k := Nat.one_le_two_pow
    simp only [List.map_cons, List.map_nil, List.sum_cons, List.sum_nil, pow_succ, add_zero]
    rw [← Nat.mul_add]
    congr 1
    omega

/-- The destructor's deallocation loop pairs the chunks, in order, with the
doubling size sequence starting at its `sz` argument. -/
lemma deallocLoop_eq_zip (l : List Nat) :
    ∀ sz, deallocLoop l sz = l.zip ((List.range l.length).map (fun i => sz * 2 ^ i)) := by
  induction l with
  | nil => intro sz; rfl
  | cons a t ih =>
    intro sz
    have hfun : ((fun i => sz * 2 ^ i) ∘ Nat.succ) = (fun i => sz * 2 * 2 ^ i) := by
      funext i
      simp only [Function.comp, pow_succ]
      ring
    simp only [deallocLoop, ih (sz * 2), List.length_cons, List.range_succ_eq_map,
      List.map_cons, List.map_map, hfun, List.zip_cons_cons, pow_zero, mul_one]

/-- Running `k ≤ n` acquisitions against a free list holding `f 0, …, f (n-1)`
(in that ascending order) hands out `f (n-1), f (n-2), …` from the back and
leaves `f 0, …, f (n-k-1)` free, touching neither the chunks nor the
allocator. -/
lemma acquireRun_map (f : Nat → Nat) :
    ∀ (k n : Nat) (p : Pool) (m : Mem), k ≤ n →
      p.m_freeObjects = (List.range n).map f →
      acquireRun k p m =
        ((List.range k).map (fun j => f (n - 1 - j)),
         { p with m_freeObjects := (List.range (n - k)).map f }, m) := by
  intro k
  induction k with
  | zero =>
    intro n p m hk hfree
    simp [acquireRun, ← hfree]
  | succ k ih =>
    intro n p m hk hfree
    obtain ⟨n', rfl⟩ : ∃ n', n = n' + 1 := ⟨n - 1, by omega⟩
    have hne : p.m_freeObjects ≠ [] := by
      rw [hfree, map_range_succ]
      simp
    have hacq : acquireObject p m true =
        (Except.ok (f n'), { p with m_freeObjects := (List.range n').map f }, m) := by
      rw [acquireObject_of_ne_nil m true hne]
      simp [hfree, getLastD_map_range, dropLast_map_range, getLast?_range]
    have hk' : k ≤ n' := by omega
    have hrest := ih n' { p with m_freeObjects := (List.range n').map f } m hk' rfl
    simp only [acquireRun, hacq, hrest]
    have hfun : ((fun j => f (n' + 1 - 1 - j)) ∘ Nat.succ) = (fun j => f (n' - 1 - j)) := by
      funext j
      have hj : n' + 1 - 1 - (j + 1) = n' - 1 - j := by omega
      simp only [Function.comp, Nat.succ_eq_add_one, hj]
    have hn1 : n' + 1 - (k + 1) = n' - k := by omega
    rw [List.range_succ_eq_map, List.map_cons, List.map_map, hfun, hn1]
    have hz : n' + 1 - 1 - 0 = n' := by omega
    rw [hz]

/-! ## The claims -/

/-- C1: capacity conservation — for every sequence of acquire/release
operations on a single pool, the number of addresses in the free-slot set
plus the number of currently live (issued, unreleased) objects equals the
sum of the capacities of all chunks allocated so far. -/
theorem capacity_conservation (limit : Nat) (ops : List Op) :
    (run limit ops).pool.m_freeObjects.length + (run limit ops).live.length
      = (run limit ops).chunkCaps.sum :=
  (inv_run limit ops).hcons

/-- C2: growth doubling — the initial chunk size is the constant 5; the
`k`-th growth event (0-indexed `i`-th) allocated a chunk of exactly
`c0 * 2 ^ i` slots; after `n` growth events the total capacity is
`c0 * (2 ^ n - 1)` and the stored next-chunk size has been doubled to
`c0 * 2 ^ n`. -/
theorem growth_doubling (limit : Nat) (ops : List Op) :
    ms_initialChunkSize = 5 ∧
    (run limit ops).chunkCaps =
      (List.range (run limit ops).chunkCaps.length).map
        (fun i => ms_initialChunkSize * 2 ^ i) ∧
    (run limit ops).chunkCaps.sum
      = ms_initialChunkSize * (2 ^ (run limit ops).chunkCaps.length - 1) ∧
    (run limit ops).pool.m_newChunkSize
      = ms_initialChunkSize * 2 ^ (run limit ops).chunkCaps.length := by
  have h := inv_run limit ops
  have hlen : (run limit ops).chunkCaps.length = (run limit ops).pool.m_pool.length := by
    rw [h.hcaps]
    simp
  refine ⟨rfl, ?_, ?_, ?_⟩
  · rw [hlen, h.hcaps]
  · rw [hlen, h.hcaps, sum_map_range_pow]
  · rw [hlen, h.hsize]

/-- C9: no-alias guarantee — in every reachable pool state, the addresses of
any two simultaneously live handles are distinct. -/
theorem no_alias (limit : Nat) (ops : List Op) :
    (run limit ops).live.Pairwise (fun a b => a ≠ b) :=
  (inv_run limit ops).hnodup.of_append_right

/-- C3: recycling round-trip — releasing a handle's address and immediately
acquiring again returns exactly that address, leaving pool and allocator in
the pre-release state (in particular no growth event occurs); and in
general, an acquisition from a nonempty free list removes its most recently
inserted (last) address. -/
theorem recycling_lifo (p : Pool) (m : Mem) (a : Nat) :
    acquireObject (releaseObject p a) m true = (Except.ok a, p, m) ∧
    (p.m_freeObjects ≠ [] →
      acquireObject p m true =
        (Except.ok (p.m_freeObjects.getLastD 0),
         { p with m_freeObjects := p.m_freeObjects.dropLast }, m)) := by
  constructor
  · have hne : (releaseObject p a).m_freeObjects ≠ [] := by simp [releaseObject]
    rw [acquireObject_of_ne_nil m true hne]
    simp [releaseObject, List.getLastD_concat, List.dropLast_concat]
  · intro h
    rw [acquireObject_of_ne_nil m true h]
    simp

/-- Witness for C3 at a concrete pool: releasing address 7 and re-acquiring
returns 7 and restores the state; a plain acquisition takes the last free
address 2. -/
theorem recycling_lifo_witness :
    acquireObject
        (releaseObject { m_pool := [0], m_freeObjects := [0, 1, 2], m_newChunkSize := 40 } 7)
        { next := 5, limit := 100 } true
      = (Except.ok 7, { m_pool := [0], m_freeObjects := [0, 1, 2], m_newChunkSize := 40 },
         { next := 5, limit := 100 }) ∧
    acquireObject { m_pool := [0], m_freeObjects := [0, 1, 2], m_newChunkSize := 40 }
        { next := 5, limit := 100 } true
      = (Except.ok 2, { m_pool := [0], m_freeObjects := [0, 1], m_newChunkSize := 40 },
         { next := 5, limit := 100 }) := by
  have h := recycling_lifo { m_pool := [0], m_freeObjects := [0, 1, 2], m_newChunkSize := 40 }
    { next := 5, limit := 100 } 7
  refine ⟨h.1, ?_⟩
  have h2 := h.2 (by decide)
  exact h2.trans rfl

/-- C4: construction-failure atomicity — when `T`'s constructor throws during
an acquisition (and the provider did not fail first), the error is a
construction failure surfaced to the caller, the slot about to be used is
still in the free-slot set (it was never removed), nothing became live, the
pre-growth state is fully unchanged when no growth was needed, and a future
acquisition succeeds on exactly that slot. -/
theorem construction_failure_atomic (p : Pool) (m : Mem)
    (hpos : 1 ≤ p.m_newChunkSize)
    (hnoom : (acquireObject p m false).1 ≠ Except.error PoolError.outOfMemory) :
    ∃ p1 m1,
      acquireObject p m false = (Except.error PoolError.constructionFailure, p1, m1) ∧
      p1.m_freeObjects ≠ [] ∧
      p1.m_freeObjects.getLastD 0 ∈ p1.m_freeObjects ∧
      (p.m_freeObjects ≠ [] → p1 = p ∧ m1 = m) ∧
      (∀ live caps,
        (step { pool := p, mem := m, live := live, chunkCaps := caps }
            (Op.acquire false)).live = live) ∧
      acquireObject p1 m1 true =
        (Except.ok (p1.m_freeObjects.getLastD 0),
         { p1 with m_freeObjects := p1.m_freeObjects.dropLast }, m1) := by
  by_cases hfree : p.m_freeObjects = []
  · by_cases halloc : m.next + p.m_newChunkSize ≤ m.limit
    · have hgrow : acquireObject p m false =
          (Except.error PoolError.constructionFailure,
           { m_pool := p.m_pool ++ [m.next],
             m_freeObjects := (List.range p.m_newChunkSize).map (fun i => m.next + i),
             m_newChunkSize := p.m_newChunkSize * 2 },
           { next := m.next + p.m_newChunkSize, limit := m.limit }) := by
        simpa using acquireObject_grow false hfree halloc hpos
      have hne : ((List.range p.m_newChunkSize).map (fun i => m.next + i)) ≠ [] := by
        apply List.ne_nil_of_length_pos
        simp only [List.length_map, List.length_range]
        omega
      refine ⟨_, _, hgrow, hne, getLastD_mem_self hne, ?_, ?_, ?_⟩
      · intro h
        exact absurd hfree h
      · intro live caps
        simp [step, hgrow]
      · rw [acquireObject_of_ne_nil _ true hne]
        simp
    · exact absurd (congrArg Prod.fst (acquireObject_oom false hfree (by omega))) hnoom
  · have heq : acquireObject p m false = (Except.error PoolError.constructionFailure, p, m) := by
      rw [acquireObject_of_ne_nil m false hfree]
      simp
    refine ⟨p, m, heq, hfree, getLastD_mem_self hfree, fun _ => ⟨rfl, rfl⟩, ?_, ?_⟩
    · intro live caps
      simp [step, heq]
    · rw [acquireObject_of_ne_nil m true hfree]
      simp

/-- Witness for C4: on a fresh pool over a large provider, a throwing
constructor leaves the freshly grown free list intact and a retry succeeds
on the same slot. -/
theorem construction_failure_atomic_witness :
    ∃ p1 m1,
      acquireObject initPool { next := 0, limit := 100 } false
        = (Except.error PoolError.constructionFailure, p1, m1) ∧
      p1.m_freeObjects ≠ [] ∧
      p1.m_freeObjects.getLastD 0 ∈ p1.m_freeObjects ∧
      (initPool.m_freeObjects ≠ [] → p1 = initPool ∧ m1 = { next := 0, limit := 100 }) ∧
      (∀ live caps,
        (step { pool := initPool, mem := { next := 0, limit := 100 },
                live := live, chunkCaps := caps } (Op.acquire false)).live = live) ∧
      acquireObject p1 m1 true =
        (Except.ok (p1.m_freeObjects.getLastD 0),
         { p1 with m_freeObjects := p1.m_freeObjects.dropLast }, m1) :=
  construction_failure_atomic initPool { next := 0, limit := 100 } (by decide)
    (by decide)

/-- C5: out-of-memory atomicity — when the free list is empty and the
provider cannot serve the growth request, the acquisition surfaces an
out-of-memory error and the pool's observable state (chunk sequence,
free-slot set, next-chunk-size counter, allocator, live set, recorded
capacities) is completely unchanged. -/
theorem out_of_memory_atomic (p : Pool) (m : Mem) (c : Bool)
    (hfree : p.m_freeObjects = [])
    (hoom : m.limit < m.next + p.m_newChunkSize) :
    acquireObject p m c = (Except.error PoolError.outOfMemory, p, m) ∧
    ∀ live caps,
      step { pool := p, mem := m, live := live, chunkCaps := caps } (Op.acquire c)
        = { pool := p, mem := m, live := live, chunkCaps := caps } := by
  have h := acquireObject_oom c hfree hoom
  refine ⟨h, fun live caps => ?_⟩
  simp [step, h]

/-- Witness for C5: a fresh pool over a provider of only 3 slots cannot grow
(the first chunk needs 5); the acquisition fails and nothing changes. -/
theorem out_of_memory_atomic_witness :
    acquireObject initPool { next := 0, limit := 3 } false
      = (Except.error PoolError.outOfMemory, initPool, { next := 0, limit := 3 }) ∧
    step { pool := initPool, mem := { next := 0, limit := 3 },
           live := [7], chunkCaps := [5] } (Op.acquire false)
      = { pool := initPool, mem := { next := 0, limit := 3 },
          live := [7], chunkCaps := [5] } := by
  have h := out_of_memory_atomic initPool { next := 0, limit := 3 } false rfl (by decide)
  exact ⟨h.1, h.2 [7] [5]⟩

/-- C6 counterexample: on the pool obtained by one acquisition (one growth
event), `m_newChunkSize` is `10`; the defaulted member-wise move *copies*
that `size_t`, so the moved-from pool's growth counter is `10` and is not
reset to the initial chunk size `5`, contradicting the claim's "growth
counter reset to the initial chunk size". -/
theorem move_reset_counterexample :
    (movePool (run 100 [Op.acquire true]).pool).2.m_newChunkSize = 10 ∧
    ms_initialChunkSize = 5 ∧
    (movePool (run 100 [Op.acquire true]).pool).2.m_newChunkSize ≠ ms_initialChunkSize := by
  refine ⟨by decide, rfl, by decide⟩

/-- C6 (amended): moving a pool transfers the chunk sequence, the free-slot
set and the growth-size counter wholesale to the destination, and the
moved-from pool is left with no chunks and no free slots, its growth
counter retaining its previous value (the defaulted member-wise move copies
the `size_t`, it does not reset it). -/
theorem move_semantics_amended (p : Pool) :
    movePool p = (p, { m_pool := [], m_freeObjects := [],
                       m_newChunkSize := p.m_newChunkSize }) :=
  rfl

/-- C7 (code slip): the source declares `acquireObject(Args... args)` — a
*by-value* parameter pack — while its own comments promise perfect
forwarding with no copy.  Passing an lvalue argument with `copies = 0`
through the declared signature stores an object built from one copy
(`copies = 1`, payload preserved), whereas the perfectly-forwarding
signature described by the spec and the code comments would store it with
`copies = 0`. -/
theorem byvalue_argument_copied :
    (acquireObjectByValueArg initPool { next := 0, limit := 100 }
        { val := 42, copies := 0 }).1
      = Except.ok { val := 42, copies := 1 } ∧
    (acquireObjectForwarded initPool { next := 0, limit := 100 }
        { val := 42, copies := 0 }).1
      = Except.ok { val := 42, copies := 0 } :=
  ⟨rfl, rfl⟩

/-- C8: destruction — in every reachable state, the destructor's defensive
check (free-slot count equals the doubling-formula total capacity) passes
exactly when no live handle is outstanding, and the deallocation loop hands
every chunk back in allocation order paired with exactly the capacity it
was allocated with (`chunkCaps` records the size passed to `allocate` at
each growth event: the initial size for chunk 0, doubling afterwards). -/
theorem destructor_correct (limit : Nat) (ops : List Op) :
    ((destructorCheck (run limit ops).pool = true) ↔ (run limit ops).live = []) ∧
    deallocLoop (run limit ops).pool.m_pool ms_initialChunkSize
      = (run limit ops).pool.m_pool.zip (run limit ops).chunkCaps := by
  have h := inv_run limit ops
  have hsum : (run limit ops).chunkCaps.sum
      = ms_initialChunkSize * (2 ^ (run limit ops).pool.m_pool.length - 1) := by
    rw [h.hcaps, sum_map_range_pow]
  constructor
  · simp only [destructorCheck, beq_iff_eq]
    have hcons := h.hcons
    constructor
    · intro hck
      have hlen : (run limit ops).live.length = 0 := by omega
      exact List.length_eq_zero.mp hlen
    · intro hl
      rw [hl] at hcons
      simp only [List.length_nil, add_zero] at hcons
      omega
  · rw [deallocLoop_eq_zip, h.hcaps]

/-- C10: a growth event appends the new chunk's slots in ascending address
order and acquisition takes from the back: starting from an empty free list,
`k ≤ chunkSize` consecutive successful acquisitions return the new chunk's
addresses in strictly descending order, the first being the
highest-addressed slot of the new chunk. -/
theorem growth_then_descending (p : Pool) (m : Mem) (k : Nat)
    (hfree : p.m_freeObjects = [])
    (halloc : m.next + p.m_newChunkSize ≤ m.limit)
    (hpos : 1 ≤ p.m_newChunkSize)
    (hk : k ≤ p.m_newChunkSize) :
    (acquireRun k p m).1 =
      (List.range k).map (fun j => m.next + (p.m_newChunkSize - 1 - j)) ∧
    (0 < k → (acquireRun k p m).1.head? = some (m.next + (p.m_newChunkSize - 1))) ∧
    (acquireRun k p m).1.Pairwise (fun a b => b < a) := by
  have hmap : (acquireRun k p m).1 =
      (List.range k).map (fun j => m.next + (p.m_newChunkSize - 1 - j)) := by
    cases k with
    | zero => simp [acquireRun]
    | succ k' =>
      have hacq : acquireObject p m true =
          (Except.ok (m.next + (p.m_newChunkSize - 1)),
           { m_pool := p.m_pool ++ [m.next],
             m_freeObjects := (List.range (p.m_newChunkSize - 1)).map
               (fun i => m.next + i),
             m_newChunkSize := p.m_newChunkSize * 2 },
           { next := m.next + p.m_newChunkSize, limit := m.limit }) := by
        simpa using acquireObject_grow true hfree halloc hpos
      have hrest := acquireRun_map (fun i => m.next + i) k' (p.m_newChunkSize - 1)
        { m_pool := p.m_pool ++ [m.next],
          m_freeObjects := (List.range (p.m_newChunkSize - 1)).map (fun i => m.next + i),
          m_newChunkSize := p.m_newChunkSize * 2 }
        { next := m.next + p.m_newChunkSize, limit := m.limit } (by omega) rfl
      simp only [acquireRun, hacq, hrest]
      have hfun : ((fun j => m.next + (p.m_newChunkSize - 1 - j)) ∘ Nat.succ)
          = (fun j => m.next + (p.m_newChunkSize - 1 - 1 - j)) := by
        funext j
        have hj : p.m_newChunkSize - 1 - (j + 1) = p.m_newChunkSize - 1 - 1 - j := by
          omega
        simp only [Function.comp, Nat.succ_eq_add_one, hj]
      rw [List.range_succ_eq_map, List.map_cons, List.map_map, hfun]
      have hz : p.m_newChunkSize - 1 - 0 = p.m_newChunkSize - 1 := by omega
      rw [hz]
  refine ⟨hmap, ?_, ?_⟩
  · intro hk0
    obtain ⟨k', rfl⟩ : ∃ k', k = k' + 1 := ⟨k - 1, by omega⟩
    rw [hmap, List.range_succ_eq_map, List.map_cons, List.head?_cons]
    simp
  · rw [hmap]
    refine List.pairwise_iff_getElem.mpr ?_
    intro i j hi hj hij
    simp only [List.length_map, List.length_range] at hi hj
    simp only [List.getElem_map, List.getElem_range]
    omega

/-- Witness for C10: on a fresh pool (chunk size 5, base address 0), three
acquisitions return `[4, 3, 2]` — the new chunk's highest addresses, in
strictly descending order. -/
theorem growth_then_descending_witness :
    (acquireRun 3 initPool { next := 0, limit := 100 }).1 = [4, 3, 2] ∧
    (acquireRun 3 initPool { next := 0, limit := 100 }).1.head? = some 4 ∧
    (acquireRun 3 initPool { next := 0, limit := 100 }).1.Pairwise (fun a b => b < a) := by
  have h := growth_then_descending initPool { next := 0, limit := 100 } 3 rfl
    (by decide) (by decide) (by decide)
  exact ⟨h.1.trans (by decide), (h.2.1 (by decide)).trans (by decide), h.2.2⟩
